import Mathlib

/-!
# Verification of the openclaw claude-cli core

Shallow embedding of the three core source modules and proofs about the
frozen behavioural claims:

* `src/agents/cli-runner/stream-json-parser.ts` — `StreamJsonAccumulator`
* `src/process/exec-streaming.ts` — `runCommandStreaming`
* `src/agents/pi-embedded-subscribe.ts` — `stripThinkingSegments` and the
  `tool_execution_end` branch of `subscribeEmbeddedPiSession`

JavaScript strings are modelled as Lean `String`, JSON values as the
inductive `JsonVal` below (the output of a successful `JSON.parse`; a parse
failure is modelled as `none`), and the ES `Map` used for the tool registry
as an insertion-ordered association list with overwrite-on-set semantics.
-/

namespace OpenClaw

/-- A JSON value, the result of a successful `JSON.parse` of one protocol
line. Object field names are unique (as they are in `JSON.parse` output);
numbers are modelled as integers, which is enough for every claim. -/
inductive JsonVal where
  | null : JsonVal
  | bool (b : Bool) : JsonVal
  | num (n : Int) : JsonVal
  | str (s : String) : JsonVal
  | arr (elems : List JsonVal) : JsonVal
  | obj (fields : List (String × JsonVal)) : JsonVal
deriving Repr

/-- Property access `j.k` on a JSON value: a field lookup on objects,
`undefined` (i.e. `none`) on every other value (mirrors `?.` access and
`(x as Record)[k]` on parse output). -/
def getField (j : JsonVal) (k : String) : Option JsonVal :=
  match j with
  | .obj fields => lookupField fields k
  | _ => none
where
  lookupField : List (String × JsonVal) → String → Option JsonVal
    | [], _ => none
    | (k', v) :: rest, k => if k' = k then some v else lookupField rest k

/-- JavaScript `a ?? b`: `b` when `a` is `undefined` (`none`) or `null`. -/
def jsCoalesce (a b : Option JsonVal) : Option JsonVal :=
  match a with
  | none => b
  | some .null => b
  | some v => some v

/-- JavaScript `a ?? d` with a definite default. -/
def jsCoalesceD (a : Option JsonVal) (d : JsonVal) : JsonVal :=
  match a with
  | none => d
  | some .null => d
  | some v => v

/-- Four-digit hexadecimal rendering used by `JSON.stringify` for control
characters (`\u00XX`). -/
def hex4 (n : Nat) : String :=
  let digit := fun (d : Nat) =>
    if d < 10 then Char.ofNat (48 + d) else Char.ofNat (87 + d)
  String.mk [digit (n / 4096 % 16), digit (n / 256 % 16), digit (n / 16 % 16), digit (n % 16)]

/-- `JSON.stringify` escaping of one character inside a string literal. -/
def escapeChar (c : Char) : String :=
  if c = '"' then "\\\""
  else if c = '\\' then "\\\\"
  else if c = '\n' then "\\n"
  else if c = '\r' then "\\r"
  else if c = '\t' then "\\t"
  else if c = '\x08' then "\\b"
  else if c = '\x0c' then "\\f"
  else if c.toNat < 32 then "\\u" ++ hex4 c.toNat
  else String.singleton c

/-- `JSON.stringify` of a string value. -/
def escapeString (s : String) : String :=
  "\"" ++ String.join (s.toList.map escapeChar) ++ "\""

/-- `JSON.stringify` (compact form, no spacing), as used in the
`tool_result` fallback branch of `StreamJsonAccumulator.handleLine`. -/
def jsonStringify : JsonVal → String
  | .null => "null"
  | .bool true => "true"
  | .bool false => "false"
  | .num n => toString n
  | .str s => escapeString s
  | .arr elems => "[" ++ stringifyList elems ++ "]"
  | .obj fields => "\x7b" ++ stringifyFields fields ++ "\x7d"
where
  stringifyList : List JsonVal → String
    | [] => ""
    | [x] => jsonStringify x
    | x :: y :: rest => jsonStringify x ++ "," ++ stringifyList (y :: rest)
  stringifyFields : List (String × JsonVal) → String
    | [] => ""
    | [(k, v)] => escapeString k ++ ":" ++ jsonStringify v
    | (k, v) :: y :: rest =>
        escapeString k ++ ":" ++ jsonStringify v ++ "," ++ stringifyFields (y :: rest)

/-! ## The stream-json accumulator (`stream-json-parser.ts`) -/

/-- Insertion-ordered string-keyed map, modelling an ES `Map<string, α>`
(`toolNameById`, `toolMetaById`): `set` overwrites an existing key in
place, else appends. -/
def mapSet {α : Type} (m : List (String × α)) (k : String) (v : α) : List (String × α) :=
  match m with
  | [] => [(k, v)]
  | (k', v') :: rest => if k' = k then (k, v) :: rest else (k', v') :: mapSet rest k v

/-- `Map.get`: first (unique) binding of the key, if any (`undefined` when
the key is absent). -/
def mapGet {α : Type} (m : List (String × α)) (k : String) : Option α :=
  match m with
  | [] => none
  | (k', v') :: rest => if k' = k then some v' else mapGet rest k

/-- The `usage` record built by the `result` branch: the raw field values
picked by `raw.input_tokens ?? raw.input` / `raw.output_tokens ?? raw.output`
(the source casts without checking, so the values stay arbitrary JSON). -/
structure UsageState where
  input : Option JsonVal
  output : Option JsonVal
deriving Repr

/-- Mutable state of a `StreamJsonAccumulator`. -/
structure AccState where
  sessionId : Option String
  resultText : String
  usage : Option UsageState
  toolNameById : List (String × String)
deriving Repr

/-- `new StreamJsonAccumulator()`. -/
def accInit : AccState := ⟨none, "", none, []⟩

/-- One observer callback invocation (`StreamJsonCallbacks`). -/
inductive CbEvent where
  | assistantText (text : String) : CbEvent
  | toolUse (name : String) (toolCallId : String) (args : JsonVal) : CbEvent
  | toolResult (name : String) (toolCallId : String) (isError : Bool) (result : String) : CbEvent
deriving Repr

/-- `StreamJsonAccumulator.getToolName`. -/
def getToolName (st : AccState) (toolUseId : String) : String :=
  (mapGet st.toolNameById toolUseId).getD "unknown"

/-- The `tool_use_id` extraction shared by the `tool_use` and `tool_result`
branches: `typeof parsed.tool_use_id === "string" ? parsed.tool_use_id : ""`. -/
def toolUseIdOf (j : JsonVal) : String :=
  match getField j "tool_use_id" with
  | some (.str s) => s
  | _ => ""

/-- `tool_use` branch: `typeof parsed.name === "string" ? parsed.name : "unknown"`. -/
def toolNameOf (j : JsonVal) : String :=
  match getField j "name" with
  | some (.str s) => s
  | _ => "unknown"

/-- `tool_use` branch: `parsed.input ?? parsed.args ?? {}`. -/
def toolArgsOf (j : JsonVal) : JsonVal :=
  jsCoalesceD (jsCoalesce (getField j "input") (getField j "args")) (.obj [])

/-- `tool_result` branch: `parsed.is_error === true`. -/
def isErrorOf (j : JsonVal) : Bool :=
  match getField j "is_error" with
  | some (.bool true) => true
  | _ => false

/-- `tool_result` branch result text:
`typeof content === "string" ? content : typeof output === "string" ? output
: JSON.stringify(parsed.content ?? parsed.output ?? "")`. -/
def toolResultTextOf (j : JsonVal) : String :=
  match getField j "content" with
  | some (.str s) => s
  | _ =>
    match getField j "output" with
    | some (.str s) => s
    | _ => jsonStringify (jsCoalesceD (jsCoalesce (getField j "content") (getField j "output")) (.str ""))

/-- The non-empty `"text"` blocks of an `assistant` line's
`message.content` array, in order; these are exactly the fragments the
`assistant` branch appends and reports. -/
def assistantBlocks (j : JsonVal) : List String :=
  let content := match getField j "message" with
    | some m => match getField m "content" with
      | some (.arr blocks) => blocks
      | _ => []
    | none => []
  content.filterMap fun block =>
    match getField block "type", getField block "text" with
    | some (.str "text"), some (.str t) => if t.length > 0 then some t else none
    | _, _ => none

/-- `system` branch of `handleLine`. -/
def handleSystem (j : JsonVal) (st : AccState) : AccState × List CbEvent :=
  let sid := match getField j "session_id" with
    | some (.str s) => some s
    | _ => st.sessionId
  ({ st with sessionId := sid }, [])

/-- `assistant` branch of `handleLine`: per non-empty text block, append to
`resultText` and invoke `onAssistantText`. -/
def handleAssistant (j : JsonVal) (st : AccState) : AccState × List CbEvent :=
  let blocks := assistantBlocks j
  ({ st with resultText := st.resultText ++ String.join blocks },
   blocks.map CbEvent.assistantText)

/-- `tool_use` branch of `handleLine`: register the id→name mapping when the
id is a non-empty string (`if (toolCallId)`), then invoke `onToolUse`. -/
def handleToolUse (j : JsonVal) (st : AccState) : AccState × List CbEvent :=
  let toolCallId := toolUseIdOf j
  let name := toolNameOf j
  let st' := if toolCallId ≠ "" then
      { st with toolNameById := mapSet st.toolNameById toolCallId name }
    else st
  (st', [CbEvent.toolUse name toolCallId (toolArgsOf j)])

/-- `tool_result` branch of `handleLine`: state is only read, never written. -/
def handleToolResult (j : JsonVal) (st : AccState) : AccState × List CbEvent :=
  let toolCallId := toolUseIdOf j
  (st, [CbEvent.toolResult (getToolName st toolCallId) toolCallId (isErrorOf j) (toolResultTextOf j)])

/-- `result` branch of `handleLine`. -/
def handleResult (j : JsonVal) (st : AccState) : AccState × List CbEvent :=
  let text := match getField j "result" with
    | some (.str s) => if s.length > 0 then s else st.resultText
    | _ => st.resultText
  let sid := match getField j "session_id" with
    | some (.str s) => some s
    | _ => st.sessionId
  let usage := match getField j "usage" with
    | some (.obj fields) =>
        some { input := jsCoalesce (getField (.obj fields) "input_tokens") (getField (.obj fields) "input"),
               output := jsCoalesce (getField (.obj fields) "output_tokens") (getField (.obj fields) "output") }
    | some (.arr elems) =>
        some { input := jsCoalesce (getField (.arr elems) "input_tokens") (getField (.arr elems) "input"),
               output := jsCoalesce (getField (.arr elems) "output_tokens") (getField (.arr elems) "output") }
    | _ => st.usage
  ({ st with resultText := text, sessionId := sid, usage := usage }, [])

/-- `StreamJsonAccumulator.handleLine`. The argument is the result of
`JSON.parse` on the line (`none` when parsing threw); dispatch follows the
source's `if`-chain on the `type` discriminator, and anything else is
silently ignored. -/
def handleLine (parsed : Option JsonVal) (st : AccState) : AccState × List CbEvent :=
  match parsed with
  | none => (st, [])
  | some j =>
    match getField j "type" with
    | some (.str "system") => handleSystem j st
    | some (.str "assistant") => handleAssistant j st
    | some (.str "tool_use") => handleToolUse j st
    | some (.str "tool_result") => handleToolResult j st
    | some (.str "result") => handleResult j st
    | _ => (st, [])

/-- Feed a sequence of (parsed) lines to one accumulator, collecting all
observer callback invocations in order. -/
def runLinesFrom (st : AccState) : List (Option JsonVal) → AccState × List CbEvent
  | [] => (st, [])
  | l :: rest =>
    ((runLinesFrom (handleLine l st).1 rest).1,
     (handleLine l st).2 ++ (runLinesFrom (handleLine l st).1 rest).2)

/-- Feed a sequence of lines to a fresh `StreamJsonAccumulator`. -/
def runLines (lines : List (Option JsonVal)) : AccState × List CbEvent :=
  runLinesFrom accInit lines

/-- `finalize().text` after feeding `lines` to a fresh accumulator. -/
def finalizeText (lines : List (Option JsonVal)) : String :=
  (runLines lines).1.resultText

/-! ## The streaming executor (`exec-streaming.ts`)

Decoded stdout/stderr text is modelled as `List Char`; the child process is
modelled by the sequence of events Node delivers to the handlers installed
by `runCommandStreaming` (stdout `data`, stderr `data`, `error`, `close`),
in delivery order on the single-threaded event loop. -/

/-- The `indexOf("\n")` drain loop of the stdout `data` handler, in
right-recursive form: complete lines before their terminating newline, plus
the unterminated remainder (the new `lineBuffer`). Empty lines are kept
here; the handler's `if (line.length > 0)` guard is applied at the call
site in `execStep`. -/
def splitLines : List Char → List (List Char) × List Char
  | [] => ([], [])
  | c :: rest =>
    let (ls, r) := splitLines rest
    if c = '\n' then ([] :: ls, r)
    else
      match ls with
      | [] => ([], c :: r)
      | l :: ls' => ((c :: l) :: ls', r)

/-- `SpawnResult` as resolved by `runCommandStreaming`. -/
structure SpawnRes where
  stdout : List Char
  stderr : List Char
  code : Option Int
  signal : Option String
  killed : Bool
deriving Repr, DecidableEq

/-- How the promise returned by `runCommandStreaming` settled. -/
inductive Settlement where
  | rejected (msg : String) : Settlement
  | resolved (r : SpawnRes) : Settlement
deriving Repr, DecidableEq

/-- One event delivered by the child process to the installed handlers. -/
inductive ChildEvent where
  | stdoutData (chunk : List Char) : ChildEvent
  | stderrData (chunk : List Char) : ChildEvent
  | errorEvt (msg : String) : ChildEvent
  | closeEvt (code : Option Int) (signal : Option String) (childKilled : Bool) : ChildEvent
deriving Repr, DecidableEq

/-- The closure state of one `runCommandStreaming` invocation: the `stderr`
and `lineBuffer` accumulators, the `settled` flag, the sequence of
`onStdoutLine` invocations so far, and the settlement (if any). -/
structure ExecState where
  stderr : List Char
  lineBuffer : List Char
  settled : Bool
  emitted : List (List Char)
  outcome : Option Settlement
deriving Repr, DecidableEq

def execInit : ExecState := ⟨[], [], false, [], none⟩

/-- One handler invocation of `runCommandStreaming`: the stdout `data`
handler drains complete lines (delivering only non-empty ones), the stderr
`data` handler appends verbatim, and the `error` / `close` handlers are
guarded by the `settled` flag; `close` flushes a non-empty partial line
before resolving with `stdout: ""`. -/
def execStep (st : ExecState) (e : ChildEvent) : ExecState :=
  match e with
  | .stdoutData chunk =>
    let (ls, r) := splitLines (st.lineBuffer ++ chunk)
    { st with lineBuffer := r, emitted := st.emitted ++ ls.filter (fun l => l ≠ []) }
  | .stderrData d => { st with stderr := st.stderr ++ d }
  | .errorEvt msg =>
    if st.settled then st
    else { st with settled := true, outcome := some (.rejected msg) }
  | .closeEvt code signal childKilled =>
    if st.settled then st
    else
      { st with
        settled := true,
        emitted := if st.lineBuffer ≠ [] then st.emitted ++ [st.lineBuffer] else st.emitted,
        lineBuffer := [],
        outcome := some (.resolved ⟨[], st.stderr, code, signal, childKilled⟩) }

/-- Run one invocation over a delivered event sequence. -/
def execRun (evs : List ChildEvent) : ExecState :=
  evs.foldl execStep execInit

/-- Terminal events: the two that can settle the promise. -/
def isTerminal : ChildEvent → Bool
  | .errorEvt _ => true
  | .closeEvt _ _ _ => true
  | _ => false

/-- The settlement produced when terminal event `e` is the first to fire in
state `st` (arbitrary placeholder for non-terminal events). -/
def settleOf (st : ExecState) : ChildEvent → Settlement
  | .errorEvt msg => .rejected msg
  | .closeEvt code signal childKilled => .resolved ⟨[], st.stderr, code, signal, childKilled⟩
  | _ => .rejected ""

/-! ### Spec-side splitting (for claim C1)

The claim's reading: split the concatenated output on newline characters
(JavaScript `s.split("\n")` semantics, each line with its newline
stripped), and deliver a trailing non-newline-terminated remainder last. -/

/-- JavaScript `s.split("\n")`. -/
def specSplit : List Char → List (List Char)
  | [] => [[]]
  | c :: rest =>
    if c = '\n' then [] :: specSplit rest
    else
      match specSplit rest with
      | [] => [[c]]
      | l :: ls => (c :: l) :: ls

/-- The line sequence claim C1 asserts is delivered: every
newline-terminated line (newline stripped, empty ones included), then the
trailing remainder when it is non-empty. -/
def specDelivered (s : List Char) : List (List Char) :=
  let parts := specSplit s
  parts.dropLast ++ (match parts.getLast? with
    | some [] => []
    | some r => [r]
    | none => [])

/-! ## The thinking-tag stripper (`pi-embedded-subscribe.ts`)

`THINKING_TAG_RE = /<\s*\/?\s*think(?:ing)?\s*>/gi`, scanned over the text
with `matchAll` semantics: leftmost matches, each scan resuming right after
the previous match. Text is modelled as `List Char`. -/

/-- The ECMAScript regex class `\s` (WhiteSpace plus LineTerminator):
tab, line feed, vertical tab, form feed, carriage return, space, NBSP,
U+1680, U+2000–U+200A, LS, PS, U+202F, U+205F, U+3000 and the BOM
U+FEFF. -/
def isJsWs (c : Char) : Bool :=
  c = ' ' || c = '\t' || c = '\n' || c = '\r' || c = '\x0b' || c = '\x0c'
  || c = '\u00A0' || c = '\u1680'
  || ('\u2000' ≤ c && c ≤ '\u200A')
  || c = '\u2028' || c = '\u2029' || c = '\u202F' || c = '\u205F'
  || c = '\u3000' || c = '\uFEFF'

/-- Consume the regex `\s*` (greedy). -/
def skipWs : List Char → List Char
  | [] => []
  | c :: rest => if isJsWs c then skipWs rest else c :: rest

/-- Consume a literal pattern case-insensitively (`/i` on ASCII letters),
returning the rest of the input on success. -/
def matchCI (pat : List Char) (s : List Char) : Option (List Char) :=
  match pat, s with
  | [], s => some s
  | _ :: _, [] => none
  | p :: ps, c :: cs => if c.toLower = p then matchCI ps cs else none

/-- Consume the regex `\s*>`. -/
def wsThenGt (s : List Char) : Option (List Char) :=
  match skipWs s with
  | '>' :: rest => some rest
  | _ => none

/-- Consume the regex `(?:ing)?\s*>` after `think` has matched: the greedy
optional group is tried first, backtracking to the bare `\s*>` if the
closing bracket does not follow. -/
def matchAfterThink (s : List Char) : Option (List Char) :=
  match matchCI ['i', 'n', 'g'] s with
  | some s6 =>
    match wsThenGt s6 with
    | some r => some r
    | none => wsThenGt s
  | none => wsThenGt s

/-- Match `THINKING_TAG_RE` at the head of the input: on success, the input
remaining after the match and whether the tag is closing (contains `/`,
i.e. `inThinking` becomes false). -/
def matchTag (s : List Char) : Option (List Char × Bool) :=
  match s with
  | '<' :: s1 =>
    match skipWs s1 with
    | '/' :: s3 =>
      match matchCI ['t', 'h', 'i', 'n', 'k'] (skipWs s3) with
      | some s5 => (matchAfterThink s5).map fun r => (r, true)
      | none => none
    | s2 =>
      match matchCI ['t', 'h', 'i', 'n', 'k'] (skipWs s2) with
      | some s5 => (matchAfterThink s5).map fun r => (r, false)
      | none => none
  | _ => none

theorem skipWs_length (s : List Char) : (skipWs s).length ≤ s.length := by
  induction s with
  | nil => simp [skipWs]
  | cons c rest ih =>
    simp only [skipWs]
    split
    · exact Nat.le_succ_of_le ih
    · simp

theorem matchCI_length (pat s r : List Char) (h : matchCI pat s = some r) :
    r.length ≤ s.length := by
  induction pat generalizing s with
  | nil =>
    simp only [matchCI, Option.some.injEq] at h
    rw [h]
  | cons p ps ih =>
    match s with
    | [] => simp [matchCI] at h
    | c :: cs =>
      simp only [matchCI] at h
      split at h
      · exact Nat.le_succ_of_le (ih cs h)
      · exact absurd h (by simp)

theorem wsThenGt_length (s r : List Char) (h : wsThenGt s = some r) :
    r.length < s.length := by
  unfold wsThenGt at h
  split at h
  · rename_i rest heq
    cases h
    have h1 : (skipWs s).length ≤ s.length := skipWs_length s
    rw [heq] at h1
    simp only [List.length_cons] at h1
    omega
  · exact absurd h (by simp)

theorem matchAfterThink_length (s r : List Char) (h : matchAfterThink s = some r) :
    r.length < s.length := by
  unfold matchAfterThink at h
  split at h
  · rename_i s6 heq
    split at h
    · rename_i r' heq2
      have h1 := matchCI_length _ _ _ heq
      have h2 := wsThenGt_length _ _ heq2
      cases h
      omega
    · have := wsThenGt_length _ _ h
      omega
  · exact wsThenGt_length _ _ h

theorem matchTag_length (s after : List Char) (b : Bool)
    (h : matchTag s = some (after, b)) : after.length < s.length := by
  unfold matchTag at h
  split at h
  · rename_i s1
    have hs1 : (skipWs s1).length ≤ s1.length := skipWs_length s1
    split at h
    · rename_i s3 heq
      split at h
      · rename_i s5 heq2
        have h2 := matchCI_length _ _ _ heq2
        have h3 : (skipWs s3).length ≤ s3.length := skipWs_length s3
        simp only [Option.map_eq_some'] at h
        obtain ⟨r, hr, hrb⟩ := h
        have h4 := matchAfterThink_length _ _ hr
        have h5 : (skipWs s1).length = s3.length + 1 := by rw [heq]; simp
        injection hrb with ha hb
        subst ha
        simp only [List.length_cons]
        omega
      · exact absurd h (by simp)
    · split at h
      · rename_i s5 heq2
        have h2 := matchCI_length _ _ _ heq2
        have h3 : (skipWs (skipWs s1)).length ≤ (skipWs s1).length := skipWs_length _
        simp only [Option.map_eq_some'] at h
        obtain ⟨r, hr, hrb⟩ := h
        have h4 := matchAfterThink_length _ _ hr
        injection hrb with ha hb
        subst ha
        simp only [List.length_cons]
        omega
      · exact absurd h (by simp)
  · exact absurd h (by simp)

/-- The match-and-excise loop of `stripThinkingSegments`: text outside a
thinking span is copied, text inside is dropped; each tag flips the state to
`inThinking` for an opening tag and back for a closing one, and the scan
resumes right after the tag (the `matchAll` fold, in recursive form). -/
def stripAux (s : List Char) (inT : Bool) : List Char :=
  match s with
  | [] => []
  | c :: rest =>
    match h : matchTag (c :: rest) with
    | some (after, isClose) => stripAux after (!isClose)
    | none => (if inT then [] else [c]) ++ stripAux rest inT
termination_by s.length
decreasing_by
  · exact matchTag_length _ _ _ h
  · simp

/-- `THINKING_TAG_RE.test(text)`: whether the tag matches at any position. -/
def hasTag : List Char → Bool
  | [] => false
  | c :: rest => (matchTag (c :: rest)).isSome || hasTag rest

/-- `stripThinkingSegments`, including the `!text || !RE.test(text)` fast
path that returns the text unchanged when no tag occurs in it. -/
def stripThinkingSegments (s : List Char) : List Char :=
  if s.isEmpty || !hasTag s then s else stripAux s false

/-- The `message_update` handler's buffer update (the chunk is appended to
`deltaBuffer`, and the stripper re-runs over the whole buffer). -/
def deltaBufferNext (deltaBuffer chunk : List Char) : List Char :=
  deltaBuffer ++ chunk

/-! ## The `tool_execution_end` branch of `subscribeEmbeddedPiSession`

The collaborators imported from outside the core (`formatToolAggregate`,
`splitMediaFromOutput` and the presence of the optional caller sinks) are
parameters of the embedding; the debounce queue is the pending-pair list of
`createToolDebouncer`. -/

/-- The bridge state this handler touches: the collected `toolMetas`, the
`toolMetaById` registry filled by `tool_execution_start`, and the pending
pairs of the tool debouncer.

The queue field is modelled from the spec: `createToolDebouncer` lives in
`../auto-reply/tool-meta.js`, outside the provided sources, and per spec
§3 a push appends one `(toolName, meta)` pair to the pending sequence. -/
structure BridgeState where
  toolMetas : List (String × Option String)
  toolMetaById : List (String × Option String)
  debounceQueue : List (String × Option String)
deriving Repr, DecidableEq

/-- One externally visible delivery made by the `tool_execution_end`
handler, in order: the unconditional telemetry emit, the optional
`onAgentEvent` callback, and the guarded `onToolResult` attempt. -/
inductive Delivery where
  | emitAgentTool (phase : String) (name : String) (toolCallId : String)
      (meta : Option String) (isError : Bool) : Delivery
  | onAgentEventTool (phase : String) (name : String) (toolCallId : String)
      (meta : Option String) (isError : Bool) : Delivery
  | onToolResultAttempt (text : String) (mediaUrls : List String) : Delivery
deriving Repr, DecidableEq

/-- The external collaborators and configuration of one
`subscribeEmbeddedPiSession` attachment, as seen by the
`tool_execution_end` branch. `sinkThrows` says whether the caller-supplied
`onToolResult` sink raises (synchronously) when invoked. -/
structure BridgeParams where
  fmtToolAggregate : String → Option (List String) → String
  splitMedia : String → String × List String
  hasOnAgentEvent : Bool
  hasOnToolResult : Bool
  shouldEmitPred : Option Bool
  verboseOn : Bool
  sinkThrows : Bool

/-- `params.shouldEmitToolResult()` when the predicate is injected, else
`params.verboseLevel === "on"`. -/
def emitToolResultEnabled (p : BridgeParams) : Bool :=
  match p.shouldEmitPred with
  | some b => b
  | none => p.verboseOn

/-- The `tool_execution_end` branch of the subscription handler
(`pi-embedded-subscribe.ts` lines 102–156). An uncaught exception would be
an `Except.error`; the `try { void params.onToolResult(...) } catch {}`
around the sink call is the `match` that maps both results to `Except.ok`. -/
def handleToolExecutionEnd (p : BridgeParams) (st : BridgeState)
    (toolName toolCallId : String) (isError : Bool) :
    Except String (BridgeState × List Delivery) :=
  let meta := (mapGet st.toolMetaById toolCallId).join
  let st1 := { st with
    toolMetas := st.toolMetas ++ [(toolName, meta)],
    debounceQueue := st.debounceQueue ++ [(toolName, meta)] }
  let ds := [Delivery.emitAgentTool "result" toolName toolCallId meta isError]
    ++ (if p.hasOnAgentEvent then
          [Delivery.onAgentEventTool "result" toolName toolCallId meta isError]
        else [])
  if emitToolResultEnabled p && p.hasOnToolResult then
    let agg := p.fmtToolAggregate toolName (match meta with
      | some m => some [m]
      | none => none)
    let (cleanedText, mediaUrls) := p.splitMedia agg
    if cleanedText ≠ "" || mediaUrls.length > 0 then
      match (if p.sinkThrows then (Except.error "sink failure" : Except String Unit)
             else Except.ok ()) with
      | .ok _ => .ok (st1, ds ++ [Delivery.onToolResultAttempt cleanedText mediaUrls])
      | .error _ => .ok (st1, ds ++ [Delivery.onToolResultAttempt cleanedText mediaUrls])
    else .ok (st1, ds)
  else .ok (st1, ds)

/-! ## Spec-side definitions used to state the claims -/

/-- The text override carried by a line, per the claims' reading: `some r`
exactly when the line is a `result` line whose `result` field is a
non-empty string `r`. -/
def resultOverrideOf (l : Option JsonVal) : Option String :=
  match l with
  | some j =>
    match getField j "type" with
    | some (.str "result") =>
      match getField j "result" with
      | some (.str s) => if s.length > 0 then some s else none
      | _ => none
    | _ => none
  | none => none

/-- The assistant text contributed by a line: the concatenation of its
non-empty `"text"` blocks for an `assistant` line, empty otherwise. -/
def assistContribOf (l : Option JsonVal) : String :=
  match l with
  | some j =>
    match getField j "type" with
    | some (.str "assistant") => String.join (assistantBlocks j)
    | _ => ""
  | none => ""

/-- Claim C2's asserted value of `finalize().text`: the text of the last
`result` line carrying a non-empty string result, if any such line was
consumed, else the concatenation of all assistant text blocks in arrival
order. -/
def claimFinalText (lines : List (Option JsonVal)) : String :=
  match (lines.filterMap resultOverrideOf).getLast? with
  | some r => r
  | none => String.join (lines.map assistContribOf)

/-- Claim C3's asserted `tool_result` text: the `content` field if it is a
string, else the `output` field if it is a string, else a JSON-serialized
form of whichever of the two fields is present, and the **empty string**
when neither field exists. -/
def c3ClaimedText (j : JsonVal) : String :=
  match getField j "content" with
  | some (.str s) => s
  | _ =>
    match getField j "output" with
    | some (.str s) => s
    | _ =>
      match getField j "content" with
      | some v => jsonStringify v
      | none =>
        match getField j "output" with
        | some v => jsonStringify v
        | none => ""

/-- A field value that is present and non-`null` (the values the nullish
coalescing in the fallback branch can actually select). -/
def getNonNull (j : JsonVal) (k : String) : Option JsonVal :=
  match getField j k with
  | some .null => none
  | none => none
  | some v => some v

/-- The amended C3 `tool_result` text: string `content`, else string
`output`, else the JSON serialization of the first of the two fields that
is present and non-null, else the JSON serialization of the empty string
(the two-character string made of two double-quote characters). -/
def c3AmendedText (j : JsonVal) : String :=
  match getField j "content" with
  | some (.str s) => s
  | _ =>
    match getField j "output" with
    | some (.str s) => s
    | _ =>
      match getNonNull j "content" with
      | some v => jsonStringify v
      | none =>
        match getNonNull j "output" with
        | some v => jsonStringify v
        | none => jsonStringify (.str "")

/-- The registry entry a line adds, if any: `tool_use` lines with a
non-empty string `tool_use_id` register `(id, name)`; every other line
registers nothing (`if (toolCallId)` is false for the empty string). -/
def toolUseRegOf (l : Option JsonVal) : Option (String × String) :=
  match l with
  | some j =>
    match getField j "type" with
    | some (.str "tool_use") =>
      match getField j "tool_use_id" with
      | some (.str s) => if s = "" then none else some (s, toolNameOf j)
      | _ => none
    | _ => none
  | none => none

/-- The ids registered over a line sequence. -/
def registeredToolUseIds (lines : List (Option JsonVal)) : List String :=
  lines.filterMap fun l => (toolUseRegOf l).map Prod.fst

/-- Whether a line's `tool_use_id` field is present and a string. -/
def toolUseIdIsStr (j : JsonVal) : Bool :=
  match getField j "tool_use_id" with
  | some (.str _) => true
  | _ => false

/-! ## Helper lemmas: the string map -/

theorem mapGet_mapSet_self {α : Type} (m : List (String × α)) (k : String) (v : α) :
    mapGet (mapSet m k v) k = some v := by
  induction m with
  | nil => simp [mapSet, mapGet]
  | cons kv rest ih =>
    obtain ⟨k', v'⟩ := kv
    simp only [mapSet]
    split
    · simp [mapGet]
    · rename_i hne
      simp only [mapGet]
      rw [if_neg hne]
      exact ih

theorem mapGet_mapSet_ne {α : Type} (m : List (String × α)) {k k' : String} (v : α)
    (h : k' ≠ k) : mapGet (mapSet m k v) k' = mapGet m k' := by
  induction m with
  | nil =>
    simp only [mapSet, mapGet]
    rw [if_neg fun hh => h hh.symm]
  | cons kv rest ih =>
    obtain ⟨k'', v''⟩ := kv
    simp only [mapSet]
    split
    · rename_i heq
      subst heq
      simp only [mapGet]
      rw [if_neg fun hh => h hh.symm, if_neg fun hh => h hh.symm]
    · simp only [mapGet]
      split
      · rfl
      · exact ih

theorem mapGet_mapSet_isSome {α : Type} (m : List (String × α)) (k k' : String) (v : α)
    (h : (mapGet m k').isSome) : (mapGet (mapSet m k v) k').isSome := by
  by_cases hk : k' = k
  · subst hk
    rw [mapGet_mapSet_self]
    rfl
  · rw [mapGet_mapSet_ne m v hk]
    exact h

/-! ## Helper lemmas: the accumulator -/

/-- The registry after one line: exactly the registration described by
`toolUseRegOf`, applied with `Map.set`. -/
theorem handleLine_toolNameById (l : Option JsonVal) (st : AccState) :
    (handleLine l st).1.toolNameById =
      match toolUseRegOf l with
      | some (k, v) => mapSet st.toolNameById k v
      | none => st.toolNameById := by
  match l with
  | none => rfl
  | some j =>
    simp only [handleLine, toolUseRegOf]
    rcases hty : getField j "type" with _ | ty
    · rfl
    · match ty with
      | .null | .bool _ | .num _ | .arr _ | .obj _ => rfl
      | .str s =>
        by_cases hs : s = "system"
        · subst hs; rfl
        · by_cases ha : s = "assistant"
          · subst ha; rfl
          · by_cases hu : s = "tool_use"
            · subst hu
              simp only [handleToolUse, toolUseIdOf]
              rcases hid : getField j "tool_use_id" with _ | idv
              · simp
              · match idv with
                | .null | .bool _ | .num _ | .arr _ | .obj _ => simp
                | .str sid =>
                  by_cases hsid : sid = ""
                  · subst hsid; simp
                  · simp [hsid]
            · by_cases hr : s = "tool_result"
              · subst hr; rfl
              · by_cases hres : s = "result"
                · subst hres; rfl
                · simp [hs, ha, hu, hr, hres]

/-- A registration never carries the empty id. -/
theorem toolUseRegOf_ne_empty {l : Option JsonVal} {k : String} {v : String}
    (h : toolUseRegOf l = some (k, v)) : k ≠ "" := by
  match l with
  | none => simp [toolUseRegOf] at h
  | some j =>
    simp only [toolUseRegOf] at h
    split at h
    · split at h
      · rename_i s _
        split at h
        · exact absurd h (by simp)
        · rename_i hs
          intro hk
          apply hs
          injection h with h2
          injection h2 with h3 h4
          rw [h3, hk]
      · exact absurd h (by simp)
    · exact absurd h (by simp)

theorem registeredToolUseIds_cons (l : Option JsonVal) (rest : List (Option JsonVal)) :
    registeredToolUseIds (l :: rest) =
      match toolUseRegOf l with
      | some kv => kv.1 :: registeredToolUseIds rest
      | none => registeredToolUseIds rest := by
  simp only [registeredToolUseIds, List.filterMap_cons]
  rcases toolUseRegOf l with _ | kv <;> simp

/-- Keys outside the registered-id list of a line sequence stay absent. -/
theorem mapGet_runLinesFrom_eq_none (lines : List (Option JsonVal)) (st : AccState)
    (id : String) (hid : id ∉ registeredToolUseIds lines)
    (hst : mapGet st.toolNameById id = none) :
    mapGet (runLinesFrom st lines).1.toolNameById id = none := by
  induction lines generalizing st with
  | nil => exact hst
  | cons l rest ih =>
    rw [registeredToolUseIds_cons] at hid
    simp only [runLinesFrom]
    rcases hreg : toolUseRegOf l with _ | ⟨k, v⟩
    · rw [hreg] at hid
      have hstep : mapGet (handleLine l st).1.toolNameById id = none := by
        rw [handleLine_toolNameById, hreg]
        exact hst
      exact ih _ hid hstep
    · rw [hreg] at hid
      simp only [List.mem_cons, not_or] at hid
      obtain ⟨hne, hid'⟩ := hid
      have hstep : mapGet (handleLine l st).1.toolNameById id = none := by
        rw [handleLine_toolNameById, hreg]
        exact (mapGet_mapSet_ne _ _ hne).trans hst
      exact ih _ hid' hstep

/-- Existing registry entries survive every line (they may be overwritten,
never removed). -/
theorem mapGet_handleLine_isSome (l : Option JsonVal) (st : AccState) (id : String)
    (h : (mapGet st.toolNameById id).isSome) :
    (mapGet (handleLine l st).1.toolNameById id).isSome := by
  rw [handleLine_toolNameById]
  rcases hreg : toolUseRegOf l with _ | ⟨k, v⟩
  · exact h
  · exact mapGet_mapSet_isSome _ _ _ _ h

/-! ## Claim C5 -/

/-- **C6.** (i) After consuming a `tool_use` line with `tool_use_id`
`"tu-1"` and name `"Read"` — from any accumulator state — `getToolName
"tu-1"` resolves to `"Read"`; (ii) for every id never registered by a
`tool_use` line of the consumed sequence, `getToolName` returns the
sentinel `"unknown"` instead of failing; (iii) registry entries are never
removed by any consumed line. -/
theorem claim6_tool_registry_resolution :
    (∀ st : AccState,
      getToolName (handleLine (some (.obj [("type", .str "tool_use"),
        ("tool_use_id", .str "tu-1"), ("name", .str "Read")])) st).1 "tu-1" = "Read")
    ∧ (∀ (lines : List (Option JsonVal)) (id : String),
        id ∉ registeredToolUseIds lines → getToolName (runLines lines).1 id = "unknown")
    ∧ (∀ (l : Option JsonVal) (st : AccState) (id : String),
        (mapGet st.toolNameById id).isSome →
        (mapGet (handleLine l st).1.toolNameById id).isSome) := by
  refine ⟨fun st => ?_, fun lines id h => ?_, mapGet_handleLine_isSome⟩
  · show (mapGet (mapSet st.toolNameById "tu-1" "Read") "tu-1").getD "unknown" = "Read"
    rw [mapGet_mapSet_self]
    rfl
  · show (mapGet (runLinesFrom accInit lines).1.toolNameById id).getD "unknown" = "unknown"
    rw [mapGet_runLinesFrom_eq_none lines accInit id h rfl]
    rfl

/-- Witness for C6: the registration round-trip on `"tu-1"` from a fresh
accumulator, an unregistered lookup, and survival of an existing entry. -/
theorem claim6_witness :
    getToolName (handleLine (some (.obj [("type", .str "tool_use"),
        ("tool_use_id", .str "tu-1"), ("name", .str "Read")])) accInit).1 "tu-1" = "Read"
    ∧ getToolName (runLines [some (.obj [("type", .str "tool_use"),
        ("tool_use_id", .str "tu-1"), ("name", .str "Read")])]).1 "unknown-id" = "unknown"
    ∧ (mapGet (handleLine (some (.obj [("type", .str "system")]))
        ⟨none, "", none, [("tu-1", "Read")]⟩).1.toolNameById "tu-1").isSome :=
  ⟨claim6_tool_registry_resolution.1 accInit,
   claim6_tool_registry_resolution.2.1 _ "unknown-id" (by simp [registeredToolUseIds, toolUseRegOf, getField, getField.lookupField, toolNameOf]),
   claim6_tool_registry_resolution.2.2 _ _ "tu-1" rfl⟩

/-! ## Claim C10 -/

/-- **C10.** A `tool_use` line whose `tool_use_id` is absent or not a
string still invokes the `onToolUse` observer — with `toolCallId` equal to
the empty string, the name defaulted through `toolNameOf` — but changes no
accumulator state and adds no registry entry; consequently the registry
never acquires an empty-string key: after any consumed sequence,
`getToolName ""` is `"unknown"`. -/
theorem claim10_empty_tool_call_id :
    (∀ (st : AccState) (j : JsonVal), getField j "type" = some (.str "tool_use") →
      toolUseIdIsStr j = false →
      handleLine (some j) st = (st, [CbEvent.toolUse (toolNameOf j) "" (toolArgsOf j)]))
    ∧ (∀ lines : List (Option JsonVal),
        mapGet (runLines lines).1.toolNameById "" = none)
    ∧ (∀ lines : List (Option JsonVal), getToolName (runLines lines).1 "" = "unknown") := by
  have hempty : ∀ lines : List (Option JsonVal),
      mapGet (runLines lines).1.toolNameById "" = none := by
    intro lines
    apply mapGet_runLinesFrom_eq_none lines accInit "" _ rfl
    intro hmem
    simp only [registeredToolUseIds, List.mem_filterMap] at hmem
    obtain ⟨l, _, hreg⟩ := hmem
    rcases hfst : toolUseRegOf l with _ | ⟨k, v⟩
    · rw [hfst] at hreg; exact absurd hreg (by simp)
    · rw [hfst] at hreg
      simp only [Option.map_some', Option.some.injEq] at hreg
      exact toolUseRegOf_ne_empty hfst hreg
  refine ⟨fun st j hty hid => ?_, hempty, fun lines => ?_⟩
  · simp only [handleLine, hty, handleToolUse]
    have hid' : toolUseIdOf j = "" := by
      unfold toolUseIdOf
      unfold toolUseIdIsStr at hid
      split
      · rename_i heq
        rw [heq] at hid
        exact absurd hid (by simp)
      · rfl
    rw [hid']
    simp
  · show (mapGet (runLines lines).1.toolNameById "").getD "unknown" = "unknown"
    rw [hempty lines]
    rfl

/-- Witness for C10: a `tool_use` line with a numeric `tool_use_id` and no
`name` produces the defaulted observer call and leaves a fresh accumulator
untouched; the empty id then still resolves to `"unknown"`. -/
theorem claim10_witness :
    handleLine (some (.obj [("type", .str "tool_use"), ("tool_use_id", .num 7)])) accInit
      = (accInit, [CbEvent.toolUse "unknown" "" (.obj [])])
    ∧ getToolName (runLines [some (.obj [("type", .str "tool_use"), ("tool_use_id", .num 7)])]).1 ""
      = "unknown" :=
  ⟨claim10_empty_tool_call_id.1 accInit _ rfl rfl,
   claim10_empty_tool_call_id.2.2 _⟩

/-! ## Claim C3 -/

/-- The source's `tool_result` text expression coincides with the amended
formula (string `content`, else string `output`, else serialization of the
first present non-null payload field, else the serialized empty string). -/
theorem toolResultTextOf_eq_amended (j : JsonVal) :
    toolResultTextOf j = c3AmendedText j := by
  unfold toolResultTextOf c3AmendedText getNonNull jsCoalesce jsCoalesceD
  rcases hc : getField j "content" with _ | vc
  · rcases ho : getField j "output" with _ | vo
    · simp [hc, ho]
    · cases vo <;> simp [hc, ho]
  · rcases ho : getField j "output" with _ | vo
    · cases vc <;> simp [hc, ho]
    · cases vc <;> cases vo <;> simp [hc, ho]

/-- Counterexample to C3 as stated: a `tool_result` line with neither
`content` nor `output` delivers the two-character JSON serialization of the
empty string, not the empty string the claim asserts. -/
theorem claim3_counterexample :
    handleLine (some (.obj [("type", .str "tool_result")])) accInit
      = (accInit, [CbEvent.toolResult "unknown" "" false "\"\""])
    ∧ c3ClaimedText (.obj [("type", .str "tool_result")]) = ""
    ∧ ("\"\"" : String) ≠ "" :=
  ⟨rfl, rfl, by decide⟩

/-- **C3 (amended).** Every `tool_result` line leaves the state untouched
and invokes the tool-result observer once, with the name resolved through
the registry by call id, `isError` false unless the `is_error` field is
literally `true`, and the result string given by `c3AmendedText`: the
`content` field if it is a string, else the `output` field if it is a
string, else the JSON serialization of the first of the two fields present
with a non-null value, else the JSON serialization of the empty string
(the two-character string of two double quotes) when neither is present or
both are null. -/
theorem claim3_tool_result_amended (st : AccState) (j : JsonVal)
    (hty : getField j "type" = some (.str "tool_result")) :
    handleLine (some j) st =
      (st, [CbEvent.toolResult (getToolName st (toolUseIdOf j)) (toolUseIdOf j)
              (isErrorOf j) (c3AmendedText j)]) := by
  simp only [handleLine, hty, handleToolResult]
  rw [toolResultTextOf_eq_amended]

/-- Witness for the amended C3: a `tool_result` carrying only a string
`output` and `is_error: true`, against an unregistered id. -/
theorem claim3_witness :
    getField (.obj [("type", .str "tool_result"), ("tool_use_id", .str "tu-3"),
        ("is_error", .bool true), ("output", .str "Permission denied")]) "type"
      = some (.str "tool_result")
    ∧ handleLine (some (.obj [("type", .str "tool_result"), ("tool_use_id", .str "tu-3"),
        ("is_error", .bool true), ("output", .str "Permission denied")])) accInit
      = (accInit, [CbEvent.toolResult "unknown" "tu-3" true "Permission denied"]) :=
  ⟨rfl, (claim3_tool_result_amended accInit (.obj [("type", .str "tool_result"),
      ("tool_use_id", .str "tu-3"), ("is_error", .bool true),
      ("output", .str "Permission denied")]) rfl).trans rfl⟩

/-! ## Claim C2 -/

/-- `resultText` after one line: a non-empty `result` override replaces it,
otherwise the line's assistant contribution is appended. -/
theorem handleLine_resultText (l : Option JsonVal) (st : AccState) :
    (handleLine l st).1.resultText =
      match resultOverrideOf l with
      | some r => r
      | none => st.resultText ++ assistContribOf l := by
  match l with
  | none => simp [handleLine, resultOverrideOf, assistContribOf]
  | some j =>
    simp only [handleLine, resultOverrideOf, assistContribOf]
    rcases hty : getField j "type" with _ | ty
    · simp
    · match ty with
      | .null | .bool _ | .num _ | .arr _ | .obj _ => simp
      | .str s =>
        by_cases hs : s = "system"
        · subst hs; simp [handleSystem]
        · by_cases ha : s = "assistant"
          · subst ha; simp [handleAssistant]
          · by_cases hu : s = "tool_use"
            · subst hu
              simp [handleToolUse]
              split <;> rfl
            · by_cases hr : s = "tool_result"
              · subst hr; simp [handleToolResult]
              · by_cases hres : s = "result"
                · subst hres
                  simp only [handleResult]
                  rcases hrf : getField j "result" with _ | rv
                  · simp
                  · match rv with
                    | .null | .bool _ | .num _ | .arr _ | .obj _ => simp
                    | .str rs =>
                      by_cases hlen : rs.length > 0
                      · simp [hlen]
                      · simp [hlen]
                · simp [hs, ha, hu, hr, hres]

/-- The claims'-eye evolution of `finalize().text` over a line sequence,
starting from a given accumulated text. -/
def textSpecAux (lines : List (Option JsonVal)) (acc : String) : String :=
  match lines with
  | [] => acc
  | l :: rest =>
    textSpecAux rest (match resultOverrideOf l with
      | some r => r
      | none => acc ++ assistContribOf l)

theorem runLinesFrom_resultText (lines : List (Option JsonVal)) (st : AccState) :
    (runLinesFrom st lines).1.resultText = textSpecAux lines st.resultText := by
  induction lines generalizing st with
  | nil => rfl
  | cons l rest ih =>
    simp only [runLinesFrom, textSpecAux]
    rw [ih (handleLine l st).1, handleLine_resultText]

theorem str_append_assoc (a b c : String) : a ++ b ++ c = a ++ (b ++ c) := by
  apply String.ext
  simp only [String.data_append, List.append_assoc]

theorem strJoin_cons (x : String) (xs : List String) :
    String.join (x :: xs) = x ++ String.join xs := by
  apply String.ext
  simp [String.data_append]

theorem textSpecAux_append (a b : List (Option JsonVal)) (acc : String) :
    textSpecAux (a ++ b) acc = textSpecAux b (textSpecAux a acc) := by
  induction a generalizing acc with
  | nil => rfl
  | cons l rest ih =>
    simp only [List.cons_append, textSpecAux]
    exact ih _

theorem textSpecAux_no_override (lines : List (Option JsonVal)) (acc : String)
    (h : ∀ l ∈ lines, resultOverrideOf l = none) :
    textSpecAux lines acc = acc ++ String.join (lines.map assistContribOf) := by
  induction lines generalizing acc with
  | nil => simp [textSpecAux, String.join]
  | cons l rest ih =>
    simp only [textSpecAux, h l (by simp)]
    rw [ih _ fun x hx => h x (by simp [hx]), List.map_cons, strJoin_cons,
      str_append_assoc]

theorem textSpecAux_silent_tail (lines : List (Option JsonVal)) (acc : String)
    (h1 : ∀ l ∈ lines, resultOverrideOf l = none)
    (h2 : ∀ l ∈ lines, assistContribOf l = "") :
    textSpecAux lines acc = acc := by
  induction lines generalizing acc with
  | nil => rfl
  | cons l rest ih =>
    simp only [textSpecAux, h1 l (by simp), h2 l (by simp), String.append_empty]
    exact ih _ (fun x hx => h1 x (by simp [hx])) fun x hx => h2 x (by simp [hx])

/-- Counterexample to C2 as stated: an assistant text block consumed
*after* the last non-empty `result` line is appended to the overridden
text, so `finalize().text` is `"finalmore"`, not the claimed `"final"`. -/
theorem claim2_counterexample :
    finalizeText [some (.obj [("type", .str "result"), ("result", .str "final")]),
        some (.obj [("type", .str "assistant"), ("message", .obj [("content",
          .arr [.obj [("type", .str "text"), ("text", .str "more")]])])])]
      = "finalmore"
    ∧ claimFinalText [some (.obj [("type", .str "result"), ("result", .str "final")]),
        some (.obj [("type", .str "assistant"), ("message", .obj [("content",
          .arr [.obj [("type", .str "text"), ("text", .str "more")]])])])]
      = "final"
    ∧ ("finalmore" : String) ≠ "final" :=
  ⟨rfl, rfl, by decide⟩

/-- **C2 (amended).** `finalize().text` equals the text of the last
`result` line carrying a non-empty string result *provided no non-empty
assistant text block is consumed after that line* (a later assistant block
is appended to the overridden text); when no such `result` line is
consumed it equals the concatenation, in arrival order, of all non-empty
assistant text blocks; in particular assistant `"partial"` then result
`"final"` yields `"final"`. -/
theorem claim2_result_overrides_amended :
    (∀ (pre post : List (Option JsonVal)) (r : Option JsonVal) (s : String),
      resultOverrideOf r = some s →
      (∀ x ∈ post, resultOverrideOf x = none) →
      (∀ x ∈ post, assistContribOf x = "") →
      finalizeText (pre ++ r :: post) = s)
    ∧ (∀ lines : List (Option JsonVal),
        (∀ x ∈ lines, resultOverrideOf x = none) →
        finalizeText lines = String.join (lines.map assistContribOf))
    ∧ finalizeText [some (.obj [("type", .str "assistant"), ("message", .obj [("content",
          .arr [.obj [("type", .str "text"), ("text", .str "partial")]])])]),
        some (.obj [("type", .str "result"), ("result", .str "final")])] = "final" := by
  refine ⟨fun pre post r s hr hpost1 hpost2 => ?_, fun lines h => ?_, rfl⟩
  · show (runLinesFrom accInit (pre ++ r :: post)).1.resultText = s
    rw [runLinesFrom_resultText, textSpecAux_append]
    show textSpecAux (r :: post) _ = s
    simp only [textSpecAux, hr]
    exact textSpecAux_silent_tail post s hpost1 hpost2
  · show (runLinesFrom accInit lines).1.resultText = String.join (lines.map assistContribOf)
    rw [runLinesFrom_resultText, textSpecAux_no_override lines _ h]
    apply String.ext
    simp [accInit, String.data_append]

/-- Witness for the amended C2: the claim's own example, assistant
`"partial"` then result `"final"`, through the first conjunct. -/
theorem claim2_witness :
    finalizeText ([some (.obj [("type", .str "assistant"), ("message", .obj [("content",
          .arr [.obj [("type", .str "text"), ("text", .str "partial")]])])])]
        ++ (some (.obj [("type", .str "result"), ("result", .str "final")])) :: [])
      = "final" :=
  claim2_result_overrides_amended.1 _ [] _ "final" rfl (by simp) (by simp)

/-! ## Helper lemmas: the streaming executor -/

theorem splitLines_append (xs ys : List Char) :
    splitLines (xs ++ ys) =
      ((splitLines xs).1 ++ (splitLines ((splitLines xs).2 ++ ys)).1,
       (splitLines ((splitLines xs).2 ++ ys)).2) := by
  induction xs with
  | nil => simp [splitLines]
  | cons c xs ih =>
    rcases hx : splitLines xs with ⟨ls, r⟩
    rcases hry : splitLines (r ++ ys) with ⟨ls2, r2⟩
    rw [hx, hry] at ih
    simp only [List.cons_append] at ih ⊢
    by_cases hc : c = '\n'
    · subst hc
      have hl : splitLines ('\n' :: (xs ++ ys)) = ([] :: (ls ++ ls2), r2) := by
        simp [splitLines, ih]
      have hr : splitLines ('\n' :: xs) = ([] :: ls, r) := by
        simp [splitLines, hx]
      rw [hl, hr]
      simp [hry]
    · cases ls with
      | nil =>
        simp only [List.nil_append] at ih
        have hr : splitLines (c :: xs) = ([], c :: r) := by
          simp only [splitLines, hx]
          rw [if_neg hc]
        have hl : splitLines (c :: (xs ++ ys)) = splitLines (c :: (r ++ ys)) := by
          simp only [splitLines, ih, hry]
        rw [hl, hr]
        simp
      | cons l ls' =>
        have hr : splitLines (c :: xs) = ((c :: l) :: ls', r) := by
          simp only [splitLines, hx]
          rw [if_neg hc]
        have hl : splitLines (c :: (xs ++ ys)) = ((c :: l) :: (ls' ++ ls2), r2) := by
          simp only [splitLines, ih, List.cons_append]
          rw [if_neg hc]
        rw [hl, hr]
        simp [hry]

theorem splitLines_rem_no_nl (s : List Char) : '\n' ∉ (splitLines s).2 := by
  induction s with
  | nil => simp [splitLines]
  | cons c rest ih =>
    rcases hx : splitLines rest with ⟨ls, r⟩
    rw [hx] at ih
    simp only [splitLines, hx]
    by_cases hc : c = '\n'
    · simpa [hc] using ih
    · cases ls with
      | nil =>
        simp only [if_neg hc, List.mem_cons, not_or]
        exact ⟨fun h => hc h.symm, ih⟩
      | cons l ls' => simpa [if_neg hc] using ih

theorem splitLines_no_nl (s : List Char) (h : '\n' ∉ s) : splitLines s = ([], s) := by
  induction s with
  | nil => rfl
  | cons c rest ih =>
    simp only [List.mem_cons, not_or] at h
    obtain ⟨hc, hrest⟩ := h
    simp only [splitLines, ih hrest]
    rw [if_neg fun hh => hc hh.symm]

/-- Folding the stdout `data` handler over a chunk list: the emitted lines
are the non-empty complete lines of `lineBuffer ++ join chunks`, and the
buffer becomes its unterminated remainder. -/
theorem execRun_data (chunks : List (List Char)) (st : ExecState)
    (h : '\n' ∉ st.lineBuffer) :
    chunks.foldl (fun s ch => execStep s (.stdoutData ch)) st =
      { st with
        lineBuffer := (splitLines (st.lineBuffer ++ chunks.flatten)).2,
        emitted := st.emitted ++
          (splitLines (st.lineBuffer ++ chunks.flatten)).1.filter (fun l => l ≠ []) } := by
  induction chunks generalizing st with
  | nil =>
    simp only [List.foldl_nil, List.flatten_nil]
    rw [List.append_nil, splitLines_no_nl _ h]
    simp
  | cons ch rest ih =>
    simp only [List.foldl_cons, List.flatten_cons]
    rcases hs : splitLines (st.lineBuffer ++ ch) with ⟨ls1, r1⟩
    have hstep : execStep st (.stdoutData ch) =
        { st with lineBuffer := r1,
                  emitted := st.emitted ++ ls1.filter (fun l => l ≠ []) } := by
      simp only [execStep, hs]
    rw [hstep]
    have hr1 : '\n' ∉ r1 := by
      have := splitLines_rem_no_nl (st.lineBuffer ++ ch)
      rwa [hs] at this
    rw [ih _ hr1]
    have hsplit : splitLines (st.lineBuffer ++ (ch ++ rest.flatten)) =
        (ls1 ++ (splitLines (r1 ++ rest.flatten)).1, (splitLines (r1 ++ rest.flatten)).2) := by
      rw [← List.append_assoc, splitLines_append (st.lineBuffer ++ ch) rest.flatten, hs]
    rw [hsplit]
    simp [List.filter_append, List.append_assoc]

theorem specSplit_eq (s : List Char) :
    specSplit s = (splitLines s).1 ++ [(splitLines s).2] := by
  induction s with
  | nil => simp [specSplit, splitLines]
  | cons c rest ih =>
    rcases hx : splitLines rest with ⟨ls, r⟩
    rw [hx] at ih
    simp only [specSplit, splitLines, hx, ih]
    by_cases hc : c = '\n'
    · simp [hc]
    · simp only [if_neg hc]
      cases ls with
      | nil => simp
      | cons l ls' => simp

theorem specDelivered_eq (s : List Char) :
    specDelivered s =
      (splitLines s).1 ++
        (if (splitLines s).2 = [] then [] else [(splitLines s).2]) := by
  rcases hx : splitLines s with ⟨ls, r⟩
  have hp : specSplit s = ls ++ [r] := by rw [specSplit_eq, hx]
  simp only [specDelivered, hp, List.dropLast_concat, List.getLast?_concat]
  cases r with
  | nil => simp
  | cons c cs => simp

/-! ## Claim C1 -/

/-- Counterexample to C1 as stated: the handler's `if (line.length > 0)`
guard drops empty lines, so the chunk `"a\n\nb"` delivers `["a", "b"]`
while splitting the concatenated output on newlines (remainder last) gives
`["a", "", "b"]`. -/
theorem claim1_counterexample :
    (execRun [ChildEvent.stdoutData ("a\n\nb".toList),
        ChildEvent.closeEvt (some 0) none false]).emitted = ["a".toList, "b".toList]
    ∧ specDelivered ("a\n\nb".toList) = ["a".toList, [], "b".toList]
    ∧ (execRun [ChildEvent.stdoutData ("a\n\nb".toList),
        ChildEvent.closeEvt (some 0) none false]).emitted ≠ specDelivered ("a\n\nb".toList) := by
  refine ⟨?_, ?_, ?_⟩ <;> decide

/-- **C1 (amended).** For every sequence of stdout chunks, regardless of
chunk boundaries, the sequence of `onStdoutLine` calls equals the sequence
obtained by splitting the concatenation of all chunks on newlines (each
line with its newline stripped, any non-newline-terminated remainder last)
*with empty lines discarded*: only non-empty lines are delivered, the
remainder flush included, all before the result is produced in the same
`close` step. -/
theorem claim1_streaming_amended (chunks : List (List Char)) (code : Option Int)
    (sig : Option String) (k : Bool) :
    (execRun (chunks.map ChildEvent.stdoutData ++ [ChildEvent.closeEvt code sig k])).emitted
      = (specDelivered chunks.flatten).filter (fun l => l ≠ []) := by
  unfold execRun
  rw [List.foldl_append, List.foldl_map]
  rw [execRun_data chunks execInit (by simp [execInit])]
  have hinit : execInit.lineBuffer = ([] : List Char) := rfl
  rcases hs : splitLines (execInit.lineBuffer ++ chunks.flatten) with ⟨ls, r⟩
  have hs' : splitLines chunks.flatten = (ls, r) := by
    rwa [hinit, List.nil_append] at hs
  simp only [hs, List.foldl_cons, List.foldl_nil]
  have hstep : execStep
      { execInit with lineBuffer := r, emitted := execInit.emitted ++ ls.filter (fun l => l ≠ []) }
      (.closeEvt code sig k) =
      { execInit with
        lineBuffer := [],
        settled := true,
        emitted := (if r ≠ [] then (execInit.emitted ++ ls.filter (fun l => l ≠ [])) ++ [r]
          else execInit.emitted ++ ls.filter (fun l => l ≠ [])),
        outcome := some (.resolved ⟨[], execInit.stderr, code, sig, k⟩) } := by
    simp [execStep, execInit]
  rw [hstep, specDelivered_eq, hs']
  simp only [execInit, List.filter_append]
  cases r with
  | nil => simp
  | cons c cs => simp

/-! ## Claim C7 -/

theorem execStep_of_settled (st : ExecState) (e : ChildEvent) (h : st.settled = true) :
    (execStep st e).outcome = st.outcome ∧ (execStep st e).settled = true := by
  cases e with
  | stdoutData ch =>
    rcases hs : splitLines (st.lineBuffer ++ ch) with ⟨ls, r⟩
    simp [execStep, hs, h]
  | stderrData d => simp [execStep, h]
  | errorEvt msg => simp [execStep, h]
  | closeEvt code sig k => simp [execStep, h]

theorem execFold_of_settled (evs : List ChildEvent) (st : ExecState) (h : st.settled = true) :
    (evs.foldl execStep st).outcome = st.outcome ∧ (evs.foldl execStep st).settled = true := by
  induction evs generalizing st with
  | nil => exact ⟨rfl, h⟩
  | cons e rest ih =>
    simp only [List.foldl_cons]
    obtain ⟨h1, h2⟩ := execStep_of_settled st e h
    obtain ⟨h3, h4⟩ := ih (execStep st e) h2
    exact ⟨h3.trans h1, h4⟩

theorem execFold_no_terminal (evs : List ChildEvent) (st : ExecState)
    (hterm : ∀ e ∈ evs, isTerminal e = false) (h : st.settled = false) :
    (evs.foldl execStep st).settled = false ∧
    (evs.foldl execStep st).outcome = st.outcome := by
  induction evs generalizing st with
  | nil => exact ⟨h, rfl⟩
  | cons e rest ih =>
    have he : isTerminal e = false := hterm e (by simp)
    have hstep : (execStep st e).settled = false ∧ (execStep st e).outcome = st.outcome := by
      cases e with
      | stdoutData ch =>
        rcases hs : splitLines (st.lineBuffer ++ ch) with ⟨ls, r⟩
        simp [execStep, hs, h]
      | stderrData d => simp [execStep, h]
      | errorEvt msg => simp [isTerminal] at he
      | closeEvt code sig k => simp [isTerminal] at he
    simp only [List.foldl_cons]
    obtain ⟨h1, h2⟩ := hstep
    obtain ⟨h3, h4⟩ := ih (execStep st e) (fun x hx => hterm x (by simp [hx])) h1
    exact ⟨h3, h4.trans h2⟩

theorem execStep_first_terminal (st : ExecState) (e : ChildEvent)
    (hset : st.settled = false) (hterm : isTerminal e = true) :
    (execStep st e).outcome = some (settleOf st e) ∧ (execStep st e).settled = true := by
  cases e with
  | stdoutData ch => simp [isTerminal] at hterm
  | stderrData d => simp [isTerminal] at hterm
  | errorEvt msg => simp [execStep, settleOf, hset]
  | closeEvt code sig k => simp [execStep, settleOf, hset]

/-- **C7.** One invocation settles exactly once: before any terminal event
the promise is unsettled; the first terminal event — spawn `error` or
process `close`, whichever is delivered first — fixes the outcome
(rejection with the error, resolution with the process outcome), and every
later event, terminal or not, leaves the outcome untouched behind the
`settled` flag. -/
theorem claim7_settles_once (pre : List ChildEvent) (e : ChildEvent) (post : List ChildEvent)
    (hpre : ∀ x ∈ pre, isTerminal x = false) (hterm : isTerminal e = true) :
    (execRun pre).outcome = none
    ∧ (execRun pre).settled = false
    ∧ (execRun (pre ++ e :: post)).outcome = some (settleOf (execRun pre) e)
    ∧ (execRun (pre ++ e :: post)).settled = true := by
  have hpre' := execFold_no_terminal pre execInit hpre rfl
  have h0 : (execRun pre).settled = false := hpre'.1
  have h1 : (execRun pre).outcome = none := by
    rw [show (execRun pre).outcome = execInit.outcome from hpre'.2]; rfl
  refine ⟨h1, h0, ?_, ?_⟩ <;>
  · have hstep := execStep_first_terminal (execRun pre) e h0 hterm
    have hrest := execFold_of_settled post (execStep (execRun pre) e) hstep.2
    unfold execRun
    rw [List.foldl_append, List.foldl_cons]
    first
    | exact hrest.1.trans hstep.1
    | exact hrest.2

/-- Witness for C7: an output chunk, then `close`, then a late spawn
`error`: the outcome is the resolution fixed at the `close` event, and the
late error is ignored. -/
theorem claim7_witness :
    (execRun [ChildEvent.stdoutData ("ok\n".toList)]).outcome = none
    ∧ (execRun [ChildEvent.stdoutData ("ok\n".toList)]).settled = false
    ∧ (execRun ([ChildEvent.stdoutData ("ok\n".toList)] ++
        ChildEvent.closeEvt (some 0) none false :: [ChildEvent.errorEvt "late spawn error"])).outcome
      = some (settleOf (execRun [ChildEvent.stdoutData ("ok\n".toList)])
          (ChildEvent.closeEvt (some 0) none false))
    ∧ (execRun ([ChildEvent.stdoutData ("ok\n".toList)] ++
        ChildEvent.closeEvt (some 0) none false :: [ChildEvent.errorEvt "late spawn error"])).settled
      = true :=
  claim7_settles_once [ChildEvent.stdoutData ("ok\n".toList)]
    (ChildEvent.closeEvt (some 0) none false) [ChildEvent.errorEvt "late spawn error"]
    (by decide) rfl

/-! ## Claim C8 -/

theorem execFold_resolved_stdout (evs : List ChildEvent) :
    ∀ st : ExecState,
      (∀ r' : SpawnRes, st.outcome = some (.resolved r') → r'.stdout = []) →
      ∀ r' : SpawnRes, (evs.foldl execStep st).outcome = some (.resolved r') → r'.stdout = [] := by
  induction evs with
  | nil => exact fun st hst => hst
  | cons e rest ih =>
    intro st hst r' h'
    refine ih (execStep st e) ?_ r' h'
    intro r'' h''
    cases e with
    | stdoutData ch =>
      rcases hs : splitLines (st.lineBuffer ++ ch) with ⟨ls, rr⟩
      rw [execStep] at h''
      simp only [hs] at h''
      exact hst r'' h''
    | stderrData d => exact hst r'' h''
    | errorEvt msg =>
      rw [execStep] at h''
      split at h''
      · exact hst r'' h''
      · simp at h''
    | closeEvt code sig k =>
      rw [execStep] at h''
      split at h''
      · exact hst r'' h''
      · simp only [Option.some.injEq] at h''
        injection h'' with h3
        rw [← h3]

/-- **C8.** Whenever the promise resolves (with any delivered event
sequence), the `stdout` field of the result is the empty string: stdout is
consumed only through the line callback. -/
theorem claim8_stdout_always_empty (evs : List ChildEvent) (r : SpawnRes)
    (h : (execRun evs).outcome = some (.resolved r)) : r.stdout = [] :=
  execFold_resolved_stdout evs execInit
    (by intro r' h'; exact absurd h' (by simp [execInit])) r h

/-- Witness for C8: a run with stderr output and a clean close resolves
with an empty `stdout`. -/
theorem claim8_witness :
    (⟨[], "boom".toList, some 0, none, false⟩ : SpawnRes).stdout = [] :=
  claim8_stdout_always_empty
    [ChildEvent.stderrData ("boom".toList), ChildEvent.closeEvt (some 0) none false]
    ⟨[], "boom".toList, some 0, none, false⟩ (by decide)

/-! ## Helper lemmas: the thinking-tag stripper -/

theorem stripAux_tag {s after : List Char} {isCl : Bool} (inT : Bool)
    (h : matchTag s = some (after, isCl)) : stripAux s inT = stripAux after (!isCl) := by
  match s with
  | [] => simp [matchTag] at h
  | c :: rest =>
    rw [stripAux.eq_2]
    split
    · rename_i after' isCl' heq
      rw [h] at heq
      injection heq with heq2
      injection heq2 with h3 h4
      rw [h3, h4]
    · rename_i heq
      rw [h] at heq
      exact absurd heq (by simp)

theorem stripAux_noTag_cons {c : Char} {rest : List Char} (inT : Bool)
    (h : matchTag (c :: rest) = none) :
    stripAux (c :: rest) inT = (if inT then [] else [c]) ++ stripAux rest inT := by
  rw [stripAux.eq_2]
  split
  · rename_i after' isCl' heq
    rw [h] at heq
    exact absurd heq (by simp)
  · rfl

theorem matchTag_cons_ne {c : Char} (rest : List Char) (h : c ≠ '<') :
    matchTag (c :: rest) = none := by
  unfold matchTag
  split
  · rename_i s1 heq
    injection heq with h1 h2
    exact absurd h1 h
  · rfl

/-- Text free of `<` is copied verbatim outside a thinking span and
dropped inside one. -/
theorem stripAux_copy_ltfree (a : List Char) (r : List Char) (inT : Bool)
    (h : '<' ∉ a) :
    stripAux (a ++ r) inT = (if inT then [] else a) ++ stripAux r inT := by
  induction a with
  | nil => simp
  | cons c a' ih =>
    simp only [List.mem_cons, not_or] at h
    obtain ⟨hc, ha'⟩ := h
    have hm : matchTag (c :: (a' ++ r)) = none :=
      matchTag_cons_ne _ fun hh => hc (hh ▸ rfl)
    rw [List.cons_append, stripAux_noTag_cons inT hm, ih ha']
    cases inT <;> simp

theorem stripAux_all_copy (a : List Char) (inT : Bool) (h : '<' ∉ a) :
    stripAux a inT = if inT then [] else a := by
  have h2 := stripAux_copy_ltfree a [] inT h
  rw [List.append_nil] at h2
  rw [h2, stripAux.eq_1, List.append_nil]

theorem hasTag_append_right (xs ys : List Char) (h : hasTag ys = true) :
    hasTag (xs ++ ys) = true := by
  induction xs with
  | nil => simpa
  | cons c xs' ih => simp [hasTag, ih]

theorem hasTag_of_matchTag {s : List Char} {p : List Char × Bool}
    (h : matchTag s = some p) : hasTag s = true := by
  match s with
  | [] => simp [matchTag] at h
  | c :: rest => simp [hasTag, h]

theorem stripThinking_of_hasTag {s : List Char} (h : hasTag s = true) :
    stripThinkingSegments s = stripAux s false := by
  match s with
  | [] => simp [hasTag] at h
  | c :: rest => simp [stripThinkingSegments, h]

/-- Excision between a recognized opening and closing tag, for any tag
spelling the matcher accepts, with `<`-free context. -/
theorem strip_excises_between (openT closeT a b c : List Char)
    (hopen : ∀ r, matchTag (openT ++ r) = some (r, false))
    (hclose : ∀ r, matchTag (closeT ++ r) = some (r, true))
    (ha : '<' ∉ a) (hb : '<' ∉ b) (hc : '<' ∉ c) :
    stripThinkingSegments (a ++ openT ++ b ++ closeT ++ c) = a ++ c := by
  have hmo := hopen (b ++ (closeT ++ c))
  have htag : hasTag (a ++ (openT ++ (b ++ (closeT ++ c)))) = true :=
    hasTag_append_right _ _ (hasTag_of_matchTag hmo)
  have hre : a ++ openT ++ b ++ closeT ++ c = a ++ (openT ++ (b ++ (closeT ++ c))) := by
    simp [List.append_assoc]
  rw [hre, stripThinking_of_hasTag htag, stripAux_copy_ltfree a _ false ha,
    stripAux_tag false hmo]
  show a ++ stripAux (b ++ (closeT ++ c)) true = a ++ c
  rw [stripAux_copy_ltfree b _ true hb, stripAux_tag true (hclose c)]
  show a ++ stripAux c false = a ++ c
  rw [stripAux_all_copy c false hc]
  simp

/-- An opening tag with no later closing tag suppresses everything after
it. -/
theorem strip_suppresses_after_open (openT a b : List Char)
    (hopen : ∀ r, matchTag (openT ++ r) = some (r, false))
    (ha : '<' ∉ a) (hb : '<' ∉ b) :
    stripThinkingSegments (a ++ openT ++ b) = a := by
  have hmo := hopen b
  have htag : hasTag (a ++ (openT ++ b)) = true :=
    hasTag_append_right _ _ (hasTag_of_matchTag hmo)
  have hre : a ++ openT ++ b = a ++ (openT ++ b) := by simp [List.append_assoc]
  rw [hre, stripThinking_of_hasTag htag, stripAux_copy_ltfree a _ false ha,
    stripAux_tag false hmo]
  show a ++ stripAux b true = a
  rw [stripAux_all_copy b true hb]
  simp

theorem matchTag_open_plain (r : List Char) :
    matchTag ("<thinking>".toList ++ r) = some (r, false) := rfl

theorem matchTag_close_plain (r : List Char) :
    matchTag ("</thinking>".toList ++ r) = some (r, true) := rfl

theorem matchTag_open_mixed (r : List Char) :
    matchTag ("< ThInKing >".toList ++ r) = some (r, false) := rfl

theorem matchTag_close_mixed (r : List Char) :
    matchTag ("</ tHiNk >".toList ++ r) = some (r, true) := rfl

theorem matchTag_open_nbsp (r : List Char) :
    matchTag ("<\u00A0thinking>".toList ++ r) = some (r, false) := rfl

/-! ## Claim C4 -/

/-- **C4.** The cross-chunk thinking stripper: (i)
`"<thinking>hidden</thinking>visible"` strips to `"visible"`; (ii) text
between an opening and a closing marker is excised (shown for `<`-free
segments around the plain tags); (iii) an opening marker with no later
closing marker suppresses all text after it; (iv) text in which the
marker matches nowhere is returned unchanged; (v) the markers are
case-insensitive and whitespace-tolerant around the tag name, for the full
ECMAScript `\s` class — shown with ASCII blanks and with a no-break space
U+00A0 inside an unterminated opening tag, which suppresses the rest; (vi)
because each `message_update` re-runs the stripper over the whole
accumulated buffer, the split delivery `"<thi"` then
`"nking>hidden</thinking>visible"` through the same buffer also yields
`"visible"`. -/
theorem claim4_thinking_stripper :
    stripThinkingSegments "<thinking>hidden</thinking>visible".toList = "visible".toList
    ∧ (∀ a b c : List Char, '<' ∉ a → '<' ∉ b → '<' ∉ c →
        stripThinkingSegments (a ++ "<thinking>".toList ++ b ++ "</thinking>".toList ++ c)
          = a ++ c)
    ∧ (∀ a b : List Char, '<' ∉ a → '<' ∉ b →
        stripThinkingSegments (a ++ "<thinking>".toList ++ b) = a)
    ∧ (∀ s : List Char, hasTag s = false → stripThinkingSegments s = s)
    ∧ stripThinkingSegments "< ThInKing >hidden</ tHiNk >visible".toList = "visible".toList
    ∧ stripThinkingSegments (deltaBufferNext (deltaBufferNext [] "<thi".toList)
        "nking>hidden</thinking>visible".toList) = "visible".toList
    ∧ stripThinkingSegments "<\u00A0thinking>x".toList = [] := by
  have hplain : ∀ a b c : List Char, '<' ∉ a → '<' ∉ b → '<' ∉ c →
      stripThinkingSegments (a ++ "<thinking>".toList ++ b ++ "</thinking>".toList ++ c)
        = a ++ c :=
    fun a b c ha hb hc =>
      strip_excises_between _ _ a b c matchTag_open_plain matchTag_close_plain ha hb hc
  have h1 : stripThinkingSegments "<thinking>hidden</thinking>visible".toList
      = "visible".toList := by
    have h := hplain [] "hidden".toList "visible".toList (by decide) (by decide) (by decide)
    rw [show "<thinking>hidden</thinking>visible".toList
        = [] ++ "<thinking>".toList ++ "hidden".toList ++ "</thinking>".toList
            ++ "visible".toList from by decide]
    rw [h]
    rfl
  refine ⟨h1, hplain, ?_, ?_, ?_, ?_, ?_⟩
  · exact fun a b ha hb =>
      strip_suppresses_after_open _ a b matchTag_open_plain ha hb
  · intro s h
    simp [stripThinkingSegments, h]
  · have h := strip_excises_between "< ThInKing >".toList "</ tHiNk >".toList
      [] "hidden".toList "visible".toList matchTag_open_mixed matchTag_close_mixed
      (by decide) (by decide) (by decide)
    rw [show "< ThInKing >hidden</ tHiNk >visible".toList
        = [] ++ "< ThInKing >".toList ++ "hidden".toList ++ "</ tHiNk >".toList
            ++ "visible".toList from by decide]
    rw [h]
    rfl
  · rw [show deltaBufferNext (deltaBufferNext [] "<thi".toList)
        "nking>hidden</thinking>visible".toList
        = "<thinking>hidden</thinking>visible".toList from by decide]
    exact h1
  · rw [show "<\u00A0thinking>x".toList
        = [] ++ "<\u00A0thinking>".toList ++ "x".toList from by decide]
    exact strip_suppresses_after_open _ [] _ matchTag_open_nbsp (by decide) (by decide)

/-- Witness for C4: the excision and suppression conjuncts applied at
concrete `<`-free contexts. -/
theorem claim4_witness :
    stripThinkingSegments ("A: ".toList ++ "<thinking>".toList ++ "secret plan".toList
        ++ "</thinking>".toList ++ "done".toList) = "A: ".toList ++ "done".toList
    ∧ stripThinkingSegments ("ok ".toList ++ "<thinking>".toList ++ "dangling".toList)
      = "ok ".toList :=
  ⟨claim4_thinking_stripper.2.1 _ _ _ (by decide) (by decide) (by decide),
   claim4_thinking_stripper.2.2.1 _ _ (by decide) (by decide)⟩

/-! ## Claim C9 -/

/-- **C9.** When verbose tool-result delivery is enabled and the
caller-supplied `onToolResult` sink raises during delivery of a
`tool_execution_end` event, the exception is caught and discarded at the
point of delivery: the handler completes normally (`Except.ok`, never a
propagated error), the run is indistinguishable from one with a
well-behaved sink, and the state update (collected `toolMetas`, untouched
`toolMetaById` registry, debounce-queue push) together with the deliveries
to the telemetry emitter and the `onAgentEvent` sink all happen exactly as
on successful delivery. -/
theorem claim9_sink_failure_swallowed
    (fmt : String → Option (List String) → String) (split : String → String × List String)
    (hasOAE : Bool) (pred : Option Bool) (verboseOn : Bool)
    (st : BridgeState) (toolName toolCallId : String) (isError : Bool)
    (henabled : emitToolResultEnabled ⟨fmt, split, hasOAE, true, pred, verboseOn, true⟩ = true) :
    handleToolExecutionEnd ⟨fmt, split, hasOAE, true, pred, verboseOn, true⟩
        st toolName toolCallId isError
      = handleToolExecutionEnd ⟨fmt, split, hasOAE, true, pred, verboseOn, false⟩
        st toolName toolCallId isError
    ∧ ∃ ds : List Delivery,
        handleToolExecutionEnd ⟨fmt, split, hasOAE, true, pred, verboseOn, true⟩
            st toolName toolCallId isError
          = Except.ok
              ({ st with
                 toolMetas := st.toolMetas ++
                   [(toolName, (mapGet st.toolMetaById toolCallId).join)],
                 debounceQueue := st.debounceQueue ++
                   [(toolName, (mapGet st.toolMetaById toolCallId).join)] },
               Delivery.emitAgentTool "result" toolName toolCallId
                   ((mapGet st.toolMetaById toolCallId).join) isError
                 :: (if hasOAE then
                      [Delivery.onAgentEventTool "result" toolName toolCallId
                        ((mapGet st.toolMetaById toolCallId).join) isError]
                     else []) ++ ds) := by
  refine ⟨rfl, ?_⟩
  unfold handleToolExecutionEnd
  simp only [henabled, Bool.true_and, if_true]
  rcases hsp : split (fmt toolName
      (match (mapGet st.toolMetaById toolCallId).join with
       | some m => some [m]
       | none => none)) with ⟨ct, mu⟩
  split
  · exact ⟨[Delivery.onToolResultAttempt ct mu], by simp⟩
  · exact ⟨[], by simp⟩

/-- Witness for C9: a concrete formatter/splitter, a registered meta, and
a throwing sink — the handler returns `ok`, equal to the non-throwing run. -/
theorem claim9_witness :
    handleToolExecutionEnd
        ⟨fun n _ => n ++ ": done", fun s => (s, []), true, true, none, true, true⟩
        ⟨[], [("tc-1", some "meta-1")], []⟩ "Read" "tc-1" false
      = handleToolExecutionEnd
        ⟨fun n _ => n ++ ": done", fun s => (s, []), true, true, none, true, false⟩
        ⟨[], [("tc-1", some "meta-1")], []⟩ "Read" "tc-1" false
    ∧ ∃ ds : List Delivery,
        handleToolExecutionEnd
            ⟨fun n _ => n ++ ": done", fun s => (s, []), true, true, none, true, true⟩
            ⟨[], [("tc-1", some "meta-1")], []⟩ "Read" "tc-1" false
          = Except.ok
              ({ (⟨[], [("tc-1", some "meta-1")], []⟩ : BridgeState) with
                 toolMetas := (⟨[], [("tc-1", some "meta-1")], []⟩ : BridgeState).toolMetas ++
                   [("Read", (mapGet (⟨[], [("tc-1", some "meta-1")], []⟩ : BridgeState).toolMetaById "tc-1").join)],
                 debounceQueue := (⟨[], [("tc-1", some "meta-1")], []⟩ : BridgeState).debounceQueue ++
                   [("Read", (mapGet (⟨[], [("tc-1", some "meta-1")], []⟩ : BridgeState).toolMetaById "tc-1").join)] },
               Delivery.emitAgentTool "result" "Read" "tc-1"
                   ((mapGet (⟨[], [("tc-1", some "meta-1")], []⟩ : BridgeState).toolMetaById "tc-1").join) false
                 :: (if true then
                      [Delivery.onAgentEventTool "result" "Read" "tc-1"
                        ((mapGet (⟨[], [("tc-1", some "meta-1")], []⟩ : BridgeState).toolMetaById "tc-1").join) false]
                     else []) ++ ds) :=
  claim9_sink_failure_swallowed (fun n _ => n ++ ": done") (fun s => (s, []))
    true none true ⟨[], [("tc-1", some "meta-1")], []⟩ "Read" "tc-1" false rfl

end OpenClaw
